import Mathlib

/-!
Shallow embedding of the proof-of-work blockchain node
(miner request handlers, mining commit, tracker registration,
public-key byte encoding) together with proofs of the specified
properties.

The cryptographic primitives `Hash`, `Post.Verify` and `Block.Verify`
live in a source file of the `blockchain` package that is not available
(only `crypto.go` is); they are abstracted as parameters of the model
(`CryptoEnv`), and theorems that depend on their properties take those
properties (e.g. collision-freeness of the hash on the blocks at hand)
as explicit hypotheses.
-/

namespace PoWChain

/-- `bytes.Compare` from Go: lexicographic comparison of byte slices,
a proper prefix is smaller. -/
def bytesCompare : List Nat → List Nat → Ordering
  | [], [] => .eq
  | [], _ :: _ => .lt
  | _ :: _, [] => .gt
  | a :: as, b :: bs =>
    if a < b then .lt else if b < a then .gt else bytesCompare as bs

/-- `PostBody` from the data model: opaque content plus signing-time
timestamp (Go `int64` nanoseconds, modelled as `Int`). -/
structure PostBody where
  content : String
  timestamp : Int
deriving DecidableEq, Repr

/-- `Post`: a body, the author's public key (modelled by its canonical
byte serialization, which is all the miner's comparator ever sees) and a
signature. -/
structure Post where
  body : PostBody
  user : List Nat
  signature : List Nat
deriving DecidableEq, Repr

/-- `BlockHeader`: previous-block hash, summary hash over the post
list, timestamp and nonce. -/
structure BlockHeader where
  prevHash : List Nat
  summary : List Nat
  timestamp : Int
  nonce : Nat
deriving DecidableEq, Repr

/-- `Block`: a header and an ordered list of posts. -/
structure Block where
  header : BlockHeader
  posts : List Post
deriving DecidableEq, Repr

/-- `miner.cmp` from `miner.go`: order posts by timestamp, then by the
serialized public key bytes (`bytes.Compare` of `PublicKeyToBytes`). -/
def postCmp (a b : Post) : Ordering :=
  if a.body.timestamp < b.body.timestamp then .lt
  else if b.body.timestamp < a.body.timestamp then .gt
  else bytesCompare a.user b.user

/-- Key equality of two posts: the comparator returns `eq`.
This is the identity notion used by the treeset pool and index. -/
def keyEq (a b : Post) : Bool := postCmp a b == .eq

/-- Treeset membership (`set.Contains`): some element of the backing
list is comparator-equal to the query. -/
def setContains (s : List Post) (p : Post) : Bool :=
  s.any fun q => keyEq q p

/-- Treeset insertion (`set.Add`): sorted insertion by the comparator;
an element with an equal key is replaced, as in the red-black tree's
`Put`. -/
def setAdd (s : List Post) (p : Post) : List Post :=
  match s with
  | [] => [p]
  | q :: qs =>
    match postCmp p q with
    | .lt => p :: q :: qs
    | .eq => p :: qs
    | .gt => q :: setAdd qs p

/-- Treeset removal (`set.Remove`): delete the comparator-equal
elements. -/
def setRemove (s : List Post) (p : Post) : List Post :=
  s.filter fun q => !(keyEq q p)

/-- The abstracted cryptographic environment: the `Hash` function
(specialized to the two argument types it is applied to), post
signature verification, whole-block verification (`Block.Verify`), and
the difficulty constant `TARGET`. -/
structure CryptoEnv where
  hashHeader : BlockHeader → List Nat
  hashPosts : List Post → List Nat
  verifyPost : Post → Bool
  blockOk : Block → Bool
  tgt : Nat

/-- The writable state of a `Miner`: current chain, accepted-post
index, pending pool (the two sets as comparator-sorted lists). -/
structure MinerState where
  blockChain : List Block
  posts : List Post
  pool : List Post
deriving DecidableEq, Repr

/-- A fresh miner: empty chain, empty index, empty pool. -/
def initialMiner : MinerState := ⟨[], [], []⟩

/-- An HTTP-level reply: status code and optional error message. -/
def Resp := Nat × Option String
deriving DecidableEq

/-- All posts on a chain, in block order then post order. -/
def chainPosts (c : List Block) : List Post :=
  (c.map Block.posts).flatten

/-- 32 zero bytes, the previous-hash of a genesis block. -/
def zeros32 : List Nat := List.replicate 32 0

/-- Go's `copy(dst, src)` into a fresh 32-byte buffer: the first
`min 32 (length src)` bytes come from `src`, the rest stay zero. -/
def copyInto32 (src : List Nat) : List Nat :=
  src.take 32 ++ List.replicate (32 - src.length) 0

/-- The nonce-acceptance check inside `mine` (and inside
`Block.Verify`): the first `TARGET / 8` bytes of the hash are zero and,
when `TARGET % 8 > 0`, the top `TARGET % 8` bits of the next byte are
zero (the byte shifted right by `8 - TARGET % 8` is zero). -/
def powCheck (hash : List Nat) (tgt : Nat) : Bool :=
  let zeroBytes := tgt / 8
  let zeroBits := tgt % 8
  ((List.range zeroBytes).all fun i => hash.getD i 0 == 0) &&
  (if zeroBits > 0 then (hash.getD zeroBytes 0) >>> (8 - zeroBits) == 0 else true)

/-- `writeHandler`: reject an unverifiable post, reject a duplicate of
the index or the pool, otherwise insert into the pool. -/
def writeHandler (env : CryptoEnv) (m : MinerState) (p : Post) : Resp × MinerState :=
  if !env.verifyPost p then ((400, some "invalid post"), m)
  else if setContains m.posts p then
    ((400, some "duplicated post on the blockchain"), m)
  else if setContains m.pool p then
    ((400, some "duplicated post in the post"), m)
  else ((200, none), { m with pool := setAdd m.pool p })

/-- The insertion loop of `syncHandler`: skip posts already in the
accepted index `posts0` or in the (evolving) pool, insert the rest. -/
def syncInsert (posts0 : List Post) (pool : List Post) (ps : List Post) : List Post :=
  ps.foldl
    (fun pool p =>
      if setContains posts0 p || setContains pool p then pool
      else setAdd pool p)
    pool

/-- `syncHandler`: reject the whole batch if any post fails
verification; otherwise insert every post that is in neither the index
nor the (evolving) pool. -/
def syncHandler (env : CryptoEnv) (m : MinerState) (ps : List Post) : Resp × MinerState :=
  if ps.any (fun p => !env.verifyPost p) then
    ((400, some "posts are invalid"), m)
  else
    ((200, none), { m with pool := syncInsert m.posts m.pool ps })

/-- The genesis-link check of `broadcastHandler`: the first block's
previous-hash is 32 zero bytes. -/
def firstLinkOk (c : List Block) : Bool :=
  match c with
  | [] => true
  | b :: _ => b.header.prevHash == zeros32

/-- The link check of `broadcastHandler`: every block's previous-hash
equals the hash of its predecessor's header. -/
def linksOk (env : CryptoEnv) : List Block → Bool
  | [] => true
  | [_] => true
  | a :: b :: rest =>
    (b.header.prevHash == env.hashHeader a.header) && linksOk env (b :: rest)

/-- The duplicate-post scan of `broadcastHandler`: walk the posts,
growing a treeset; fail on the first post whose key is already present,
otherwise return the accumulated set. -/
def addAllNoDup (acc : List Post) : List Post → Option (List Post)
  | [] => some acc
  | p :: ps =>
    if setContains acc p then none
    else addAllNoDup (setAdd acc p) ps

/-- The fork point computed by `broadcastHandler`: the first index at
which the two chains' header hashes differ (the whole length of the
first chain if they never do). -/
def divergeIdx (env : CryptoEnv) : List Block → List Block → Nat
  | [], _ => 0
  | _ :: _, [] => 0
  | a :: as, b :: bs =>
    if env.hashHeader a.header == env.hashHeader b.header then
      divergeIdx env as bs + 1
    else 0

/-- Rebuild step of the pool: add every post of `l` whose key is not in
the accepted set `accepted`. -/
def addMissing (accepted : List Post) (pool : List Post) (l : List Post) : List Post :=
  l.foldl (fun acc p => if setContains accepted p then acc else setAdd acc p) pool

/-- `broadcastHandler`: ignore chains no longer than the local one and
chains failing any structural check, always replying 200; otherwise
replace the chain, recompute the accepted index and rebuild the pool
(previous pool minus accepted posts, plus posts of orphaned blocks not
on the new chain). -/
def broadcastHandler (env : CryptoEnv) (m : MinerState) (newChain : List Block) :
    Resp × MinerState :=
  if newChain.length ≤ m.blockChain.length then ((200, none), m)
  else if !(newChain.all env.blockOk) then ((200, none), m)
  else if !(firstLinkOk newChain) then ((200, none), m)
  else if !(linksOk env newChain) then ((200, none), m)
  else
    match addAllNoDup [] (chainPosts newChain) with
    | none => ((200, none), m)
    | some posts =>
      let pool1 := addMissing posts [] m.pool
      let i := divergeIdx env m.blockChain newChain
      let pool2 := (m.blockChain.drop i).foldl
        (fun acc b => addMissing posts acc b.posts) pool1
      ((200, none), { blockChain := newChain, posts := posts, pool := pool2 })

/-- `PostsPerBlock` from `routine.go`. -/
def PostsPerBlock : Nat := 2

/-- The candidate block built at the top of `mine`: up to
`PostsPerBlock` posts taken in pool order, summary hash over that list,
previous-hash copied from the hash of the chain tip's header (all zeros
for an empty chain), and the given timestamp and nonce. -/
def mkCandidate (env : CryptoEnv) (m : MinerState) (ts : Int) (nonce : Nat) : Block :=
  let posts := m.pool.take PostsPerBlock
  { header :=
      { prevHash :=
          match m.blockChain.getLast? with
          | none => zeros32
          | some b => copyInto32 (env.hashHeader b.header)
        summary := env.hashPosts posts
        timestamp := ts
        nonce := nonce }
    posts := posts }

/-- The commit phase of `mine`: abort (discard the block, change
nothing) if the chain length differs from the snapshot taken before
proof-of-work; otherwise append the block, move its posts from the pool
to the accepted index, and return the full new chain as the broadcast
payload. -/
def mineCommit (m : MinerState) (snapLen : Nat) (block : Block) :
    MinerState × Option (List Block) :=
  if m.blockChain.length ≠ snapLen then (m, none)
  else
    let m' : MinerState :=
      { blockChain := m.blockChain ++ [block]
        posts := block.posts.foldl setAdd m.posts
        pool := block.posts.foldl setRemove m.pool }
    (m', some m'.blockChain)

/-- One whole (sequential) pass of `mine` given the nonce the loop ends
up with: build the candidate, test the difficulty target, and on
success run the commit against the snapshot taken at the start of the
same pass. -/
def mine (env : CryptoEnv) (m : MinerState) (ts : Int) (nonce : Nat) :
    MinerState × Option (List Block) :=
  let block := mkCandidate env m ts nonce
  if powCheck (env.hashHeader block.header) env.tgt then
    mineCommit m m.blockChain.length block
  else (m, none)

/-- A mutating operation of the miner, as named by the invariant: a
user write, a peer sync batch, a received broadcast, or a mining pass
(whose commit runs when the proof-of-work check passes). -/
inductive MinerOp where
  | write (p : Post)
  | sync (ps : List Post)
  | broadcast (c : List Block)
  | mineStep (ts : Int) (nonce : Nat)
deriving Repr

/-- Apply one mutating operation to the miner state. -/
def applyOp (env : CryptoEnv) (m : MinerState) : MinerOp → MinerState
  | .write p => (writeHandler env m p).2
  | .sync ps => (syncHandler env m ps).2
  | .broadcast c => (broadcastHandler env m c).2
  | .mineStep ts nonce => (mine env m ts nonce).1

/-- Run a sequence of mutating operations from a state. -/
def runOps (env : CryptoEnv) (m : MinerState) (ops : List MinerOp) : MinerState :=
  ops.foldl (applyOp env) m

/-- The disjointness invariant: no post key is in both the pool and the
accepted-post index. -/
def disjointInv (m : MinerState) : Prop :=
  ∀ p : Post, (setContains m.pool p && setContains m.posts p) = false

/-- `EntryTimeout` from `tracker.go`, in milliseconds. -/
def EntryTimeout : Nat := 500

/-- The tracker's state: each live miner port with the expiry deadline
of its timer (modelling the `*time.Timer` installed by `AfterFunc`). -/
structure TrackerState where
  miners : List (Nat × Nat)
deriving DecidableEq, Repr

/-- `registerHandler` from `tracker.go`, at current time `now`: stop
any existing timer for the port and install a fresh one expiring
`EntryTimeout` from now, then answer 200 with every live port. -/
def registerHandler (t : TrackerState) (now : Nat) (port : Nat) :
    (Nat × List Nat) × TrackerState :=
  let miners' := (t.miners.filter fun e => e.1 ≠ port) ++ [(port, now + EntryTimeout)]
  ((200, miners'.map Prod.fst), ⟨miners'⟩)

/-- `binary.LittleEndian.PutUint32` into a fresh 4-byte buffer. -/
def putUint32LE (x : Nat) : List Nat :=
  [x % 256, x / 256 % 256, x / 256 ^ 2 % 256, x / 256 ^ 3 % 256]

/-- `binary.LittleEndian.Uint32` of a 4-byte buffer. -/
def uint32LEval (b : List Nat) : Nat :=
  b.getD 0 0 + 256 * b.getD 1 0 + 256 ^ 2 * b.getD 2 0 + 256 ^ 3 * b.getD 3 0

/-- Little-endian minimal byte representation of a natural number
(empty for zero), least significant byte first. -/
def natToBytesLE (n : Nat) : List Nat :=
  if n = 0 then []
  else n % 256 :: natToBytesLE (n / 256)
decreasing_by exact Nat.div_lt_self (Nat.pos_of_ne_zero (by assumption)) (by norm_num)

/-- `big.Int.Bytes()`: the minimal big-endian unsigned byte
representation (empty for zero). -/
def natToBytesBE (n : Nat) : List Nat := (natToBytesLE n).reverse

/-- `big.Int.SetBytes`: interpret a buffer as a big-endian unsigned
integer. -/
def bytesBEval (b : List Nat) : Nat :=
  b.foldl (fun acc x => acc * 256 + x) 0

/-- `PublicKeyToBytes` from `crypto.go`: `E` (truncated to `uint32`) as
4 little-endian bytes, then `N`'s minimal big-endian bytes. -/
def PublicKeyToBytes (E N : Nat) : List Nat :=
  putUint32LE (E % 2 ^ 32) ++ natToBytesBE N

/-- `PublicKeyFromBytes` from `crypto.go`: error on buffers of length
at most 4, otherwise decode `E` from the first 4 bytes and `N` from the
rest. -/
def PublicKeyFromBytes (buffer : List Nat) : Option (Nat × Nat) :=
  if buffer.length ≤ 4 then none
  else some (uint32LEval (buffer.take 4), bytesBEval (buffer.drop 4))

/-- Bit `j` of a byte string, counting from the most significant bit of
the first byte: bit `j % 8` (from the top) of byte `j / 8`. -/
def bitAt (hash : List Nat) (j : Nat) : Nat :=
  hash.getD (j / 8) 0 >>> (7 - j % 8) % 2

/-- "The first `tgt` bits of the hash are zero", stated bit by bit. -/
def firstBitsZero (hash : List Nat) (tgt : Nat) : Bool :=
  (List.range tgt).all fun j => bitAt hash j == 0

/-! ### Basic facts about the comparator and the treeset model -/

lemma bytesCompare_eq_iff : ∀ a b : List Nat, bytesCompare a b = .eq ↔ a = b := by
  intro a
  induction a with
  | nil => intro b; cases b <;> simp [bytesCompare]
  | cons x xs ih =>
    intro b
    cases b with
    | nil => simp [bytesCompare]
    | cons y ys =>
      rcases Nat.lt_trichotomy x y with h | h | h
      · simp [bytesCompare, h, Nat.ne_of_lt h]
      · subst h
        simp [bytesCompare, Nat.lt_irrefl, ih]
      · have h2 : ¬ x < y := Nat.lt_asymm h
        simp [bytesCompare, h2, h, Ne.symm (Nat.ne_of_lt h)]

lemma postCmp_eq_iff (a b : Post) :
    postCmp a b = .eq ↔ (a.body.timestamp = b.body.timestamp ∧ a.user = b.user) := by
  unfold postCmp
  by_cases h1 : a.body.timestamp < b.body.timestamp
  · simp [h1]
    intro h; omega
  · by_cases h2 : b.body.timestamp < a.body.timestamp
    · simp [h1, h2]
      intro h; omega
    · have h3 : a.body.timestamp = b.body.timestamp := by omega
      simp [h1, h2, h3, bytesCompare_eq_iff]

lemma ordBeq_eq_true_iff (a b : Ordering) : (a == b) = true ↔ a = b := by
  cases a <;> cases b <;> decide

lemma keyEq_iff (a b : Post) :
    keyEq a b = true ↔ (a.body.timestamp = b.body.timestamp ∧ a.user = b.user) := by
  simp [keyEq, ordBeq_eq_true_iff, postCmp_eq_iff]

lemma keyEq_refl (p : Post) : keyEq p p = true := by simp [keyEq_iff]

lemma keyEq_symm {a b : Post} (h : keyEq a b = true) : keyEq b a = true := by
  rw [keyEq_iff] at h ⊢; exact ⟨h.1.symm, h.2.symm⟩

lemma keyEq_trans {a b c : Post} (h1 : keyEq a b = true) (h2 : keyEq b c = true) :
    keyEq a c = true := by
  rw [keyEq_iff] at h1 h2 ⊢; exact ⟨h1.1.trans h2.1, h1.2.trans h2.2⟩

lemma setContains_iff (s : List Post) (p : Post) :
    setContains s p = true ↔ ∃ q ∈ s, keyEq q p = true := by
  simp [setContains]

lemma setContains_of_mem {s : List Post} {p : Post} (h : p ∈ s) :
    setContains s p = true :=
  (setContains_iff s p).2 ⟨p, h, keyEq_refl p⟩

lemma setContains_congr {p q : Post} (h : keyEq p q = true) (s : List Post) :
    setContains s p = setContains s q := by
  rcases hb : setContains s q with _ | _
  · rcases hc : setContains s p with _ | _
    · rfl
    · rcases (setContains_iff s p).1 hc with ⟨r, hr, hrp⟩
      have : setContains s q = true :=
        (setContains_iff s q).2 ⟨r, hr, keyEq_trans hrp h⟩
      rw [this] at hb; exact hb
  · rcases (setContains_iff s q).1 hb with ⟨r, hr, hrq⟩
    exact (setContains_iff s p).2 ⟨r, hr, keyEq_trans hrq (keyEq_symm h)⟩

lemma setContains_setAdd (s : List Post) (p q : Post) :
    setContains (setAdd s p) q = (keyEq p q || setContains s q) := by
  induction s with
  | nil => simp [setAdd, setContains]
  | cons r rs ih =>
    unfold setAdd
    rcases hc : postCmp p r with _ | _ | _
    · simp [setContains]
    · have hpr : keyEq p r = true := by unfold keyEq; rw [hc]; rfl
      simp only [setContains, List.any_cons] at *
      by_cases hrq : keyEq r q = true
      · have hpq : keyEq p q = true := keyEq_trans hpr hrq
        simp [hpq, hrq]
      · simp only [Bool.not_eq_true] at hrq
        simp [hrq]
    · simp only [setContains, List.any_cons] at *
      rw [ih]
      cases keyEq r q <;> cases keyEq p q <;> simp

lemma setContains_setRemove (s : List Post) (p q : Post) :
    setContains (setRemove s p) q = (!keyEq p q && setContains s q) := by
  by_cases hpq : keyEq p q = true
  · have : setContains (setRemove s p) q = false := by
      rcases hc : setContains (setRemove s p) q with _ | _
      · rfl
      · rcases (setContains_iff _ _).1 hc with ⟨r, hr, hrq⟩
        rcases List.mem_filter.1 hr with ⟨_, hkeep⟩
        have hrp : keyEq r p = true := keyEq_trans hrq (keyEq_symm hpq)
        simp [hrp] at hkeep
    simp [this, hpq]
  · simp only [Bool.not_eq_true] at hpq
    simp only [hpq, Bool.not_false, Bool.true_and]
    rcases hb : setContains s q with _ | _
    · rcases hc : setContains (setRemove s p) q with _ | _
      · rfl
      · rcases (setContains_iff _ _).1 hc with ⟨r, hr, hrq⟩
        have : setContains s q = true :=
          (setContains_iff _ _).2 ⟨r, (List.mem_filter.1 hr).1, hrq⟩
        rw [this] at hb; exact hb
    · rcases (setContains_iff _ _).1 hb with ⟨r, hr, hrq⟩
      have hrp : keyEq r p = false := by
        rcases hd : keyEq r p with _ | _
        · rfl
        · have : keyEq p q = true := keyEq_trans (keyEq_symm hd) hrq
          rw [this] at hpq; exact hpq
      exact (setContains_iff _ _).2
        ⟨r, List.mem_filter.2 ⟨hr, by simp [setRemove, hrp]⟩, hrq⟩

/-! ### Fold lemmas for the pool and index updates -/

lemma setContains_append (s t : List Post) (p : Post) :
    setContains (s ++ t) p = (setContains s p || setContains t p) := by
  simp [setContains]

lemma setContains_addMissing (accepted : List Post) :
    ∀ (l pool : List Post) (q : Post),
      setContains (addMissing accepted pool l) q =
        (setContains pool q || (setContains l q && !setContains accepted q)) := by
  intro l
  induction l with
  | nil => intro pool q; simp [addMissing, setContains]
  | cons p ps ih =>
    intro pool q
    have step : addMissing accepted pool (p :: ps) =
        addMissing accepted
          (if setContains accepted p then pool else setAdd pool p) ps := by
      simp only [addMissing, List.foldl_cons]
    rw [step, ih]
    have hcons : setContains (p :: ps) q = (keyEq p q || setContains ps q) := by
      simp [setContains]
    rw [hcons]
    by_cases hpq : keyEq p q = true
    · have hacc : setContains accepted p = setContains accepted q :=
        setContains_congr hpq accepted
      rcases ha : setContains accepted q with _ | _
      · have : setContains accepted p = false := by rw [hacc, ha]
        simp [this, setContains_setAdd, hpq, ha]
      · have : setContains accepted p = true := by rw [hacc, ha]
        simp [this, ha]
    · simp only [Bool.not_eq_true] at hpq
      rcases hap : setContains accepted p with _ | _
      · simp [setContains_setAdd, hpq]
      · simp [hpq]

lemma setContains_addAllNoDup :
    ∀ (l acc r : List Post), addAllNoDup acc l = some r →
      ∀ q, setContains r q = (setContains acc q || setContains l q) := by
  intro l
  induction l with
  | nil =>
    intro acc r h q
    simp only [addAllNoDup, Option.some.injEq] at h
    subst h; simp [setContains]
  | cons p ps ih =>
    intro acc r h q
    simp only [addAllNoDup] at h
    rcases hc : setContains acc p with _ | _
    · rw [hc] at h
      simp only [Bool.false_eq_true, if_false] at h
      rw [ih _ _ h q, setContains_setAdd]
      have hcons : setContains (p :: ps) q = (keyEq p q || setContains ps q) := by
        simp [setContains]
      rw [hcons]
      cases keyEq p q <;> cases setContains acc q <;> cases setContains ps q <;> simp
    · rw [hc] at h; simp at h

lemma setContains_syncInsert_old (posts0 : List Post) :
    ∀ (ps pool : List Post) (q : Post),
      setContains pool q = true → setContains (syncInsert posts0 pool ps) q = true := by
  intro ps
  induction ps with
  | nil => intro pool q h; simpa [syncInsert] using h
  | cons p rest ih =>
    intro pool q h
    have step : syncInsert posts0 pool (p :: rest) =
        syncInsert posts0
          (if setContains posts0 p || setContains pool p then pool else setAdd pool p)
          rest := by
      simp only [syncInsert, List.foldl_cons]
    rw [step]
    rcases hc : (setContains posts0 p || setContains pool p) with _ | _
    · have hred : setContains (syncInsert posts0 (setAdd pool p) rest) q = true := by
        apply ih
        rw [setContains_setAdd, h]
        simp
      simpa using hred
    · simpa using ih pool q h

lemma setContains_syncInsert_new (posts0 : List Post) :
    ∀ (ps pool : List Post) (p : Post), p ∈ ps →
      setContains posts0 p = false →
      setContains (syncInsert posts0 pool ps) p = true := by
  intro ps
  induction ps with
  | nil => intro pool p h; simp at h
  | cons x rest ih =>
    intro pool p hmem hnp
    have step : syncInsert posts0 pool (x :: rest) =
        syncInsert posts0
          (if setContains posts0 x || setContains pool x then pool else setAdd pool x)
          rest := by
      simp only [syncInsert, List.foldl_cons]
    rw [step]
    rcases List.mem_cons.1 hmem with hx | hx
    · subst hx
      rw [hnp, Bool.false_or]
      rcases hc : setContains pool p with _ | _
      · have hred : setContains (syncInsert posts0 (setAdd pool p) rest) p = true := by
          apply setContains_syncInsert_old
          rw [setContains_setAdd, keyEq_refl]
          rfl
        simpa using hred
      · simpa using setContains_syncInsert_old posts0 rest pool p hc
    · exact ih _ p hx hnp

lemma setContains_foldl_setAdd :
    ∀ (l s : List Post) (q : Post),
      setContains (l.foldl setAdd s) q = (setContains s q || setContains l q) := by
  intro l
  induction l with
  | nil => intro s q; simp [setContains]
  | cons p ps ih =>
    intro s q
    rw [List.foldl_cons, ih, setContains_setAdd]
    have hcons : setContains (p :: ps) q = (keyEq p q || setContains ps q) := by
      simp [setContains]
    rw [hcons]
    cases keyEq p q <;> cases setContains s q <;> cases setContains ps q <;> simp

lemma setContains_foldl_setRemove :
    ∀ (l s : List Post) (q : Post),
      setContains (l.foldl setRemove s) q = (setContains s q && !setContains l q) := by
  intro l
  induction l with
  | nil => intro s q; simp [setContains]
  | cons p ps ih =>
    intro s q
    rw [List.foldl_cons, ih, setContains_setRemove]
    have hcons : setContains (p :: ps) q = (keyEq p q || setContains ps q) := by
      simp [setContains]
    rw [hcons]
    cases keyEq p q <;> cases setContains s q <;> cases setContains ps q <;> simp

/-! ### The fork point and the shared prefix -/

lemma chainPosts_append (c d : List Block) :
    chainPosts (c ++ d) = chainPosts c ++ chainPosts d := by
  simp [chainPosts]

lemma mem_chainPosts {b : Block} {c : List Block} (hb : b ∈ c) {p : Post}
    (hp : p ∈ b.posts) : p ∈ chainPosts c := by
  simp only [chainPosts, List.mem_flatten]
  exact ⟨b.posts, List.mem_map.2 ⟨b, hb, rfl⟩, hp⟩

lemma exists_block_of_mem_chainPosts {p : Post} {c : List Block}
    (h : p ∈ chainPosts c) : ∃ b ∈ c, p ∈ b.posts := by
  simp only [chainPosts, List.mem_flatten, List.mem_map] at h
  rcases h with ⟨l, ⟨b, hb, rfl⟩, hp⟩
  exact ⟨b, hb, hp⟩

/-- Every block in the shared prefix (up to the fork point) of the old
chain has the same post list as the corresponding block of the new
chain, provided the hash is collision-free on the blocks at hand and
both chains' summaries are correct. -/
lemma diverge_prefix_posts (env : CryptoEnv) :
    ∀ (old new : List Block),
      (∀ bo ∈ old, ∀ bn ∈ new,
        env.hashHeader bo.header = env.hashHeader bn.header → bo.header = bn.header) →
      (∀ bo ∈ old, ∀ bn ∈ new,
        env.hashPosts bo.posts = env.hashPosts bn.posts → bo.posts = bn.posts) →
      (∀ b ∈ old, b.header.summary = env.hashPosts b.posts) →
      (∀ b ∈ new, b.header.summary = env.hashPosts b.posts) →
      ∀ b ∈ old.take (divergeIdx env old new), ∃ b' ∈ new, b.posts = b'.posts := by
  intro old
  induction old with
  | nil => intro new _ _ _ _ b hb; simp at hb
  | cons a as ih =>
    intro new hH hP hso hsn b hb
    cases new with
    | nil => simp [divergeIdx] at hb
    | cons c cs =>
      rcases hhash : (env.hashHeader a.header == env.hashHeader c.header) with _ | _
      · rw [show divergeIdx env (a :: as) (c :: cs) = 0 by
          simp [divergeIdx, hhash]] at hb
        simp at hb
      · have hhq : env.hashHeader a.header = env.hashHeader c.header := by
          simpa using hhash
        rw [show divergeIdx env (a :: as) (c :: cs) = divergeIdx env as cs + 1 by
          simp [divergeIdx, hhash]] at hb
        rw [List.take_succ_cons] at hb
        rcases List.mem_cons.1 hb with hba | hba
        · subst hba
          have hhd : b.header = c.header :=
            hH b (List.mem_cons_self b as) c (List.mem_cons_self c cs) hhq
          have hsum : env.hashPosts b.posts = env.hashPosts c.posts := by
            rw [← hso b (List.mem_cons_self b as), ← hsn c (List.mem_cons_self c cs), hhd]
          exact ⟨c, List.mem_cons_self c cs,
            hP b (List.mem_cons_self b as) c (List.mem_cons_self c cs) hsum⟩
        · have := ih cs
            (fun bo ho bn hn => hH bo (List.mem_cons_of_mem a ho) bn (List.mem_cons_of_mem c hn))
            (fun bo ho bn hn => hP bo (List.mem_cons_of_mem a ho) bn (List.mem_cons_of_mem c hn))
            (fun x hx => hso x (List.mem_cons_of_mem a hx))
            (fun x hx => hsn x (List.mem_cons_of_mem c hx))
            b hba
          rcases this with ⟨b', hb', hbp⟩
          exact ⟨b', List.mem_cons_of_mem c hb', hbp⟩

/-- Computation of `broadcastHandler` when every check passes. -/
lemma broadcastHandler_success (env : CryptoEnv) (m : MinerState)
    (newChain : List Block) (posts : List Post)
    (hlen : m.blockChain.length < newChain.length)
    (hval : newChain.all env.blockOk = true)
    (hfirst : firstLinkOk newChain = true)
    (hlinks : linksOk env newChain = true)
    (hnodup : addAllNoDup [] (chainPosts newChain) = some posts) :
    broadcastHandler env m newChain =
      ((200, none),
       { blockChain := newChain
         posts := posts
         pool := (m.blockChain.drop (divergeIdx env m.blockChain newChain)).foldl
           (fun acc b => addMissing posts acc b.posts)
           (addMissing posts [] m.pool) }) := by
  unfold broadcastHandler
  rw [if_neg (by omega), hval, hfirst, hlinks, hnodup]
  simp

lemma setContains_poolRebuild (posts : List Post) :
    ∀ (blocks : List Block) (pool : List Post) (q : Post),
      setContains
        (blocks.foldl (fun acc b => addMissing posts acc b.posts) pool) q =
        (setContains pool q ||
          (setContains (chainPosts blocks) q && !setContains posts q)) := by
  intro blocks
  induction blocks with
  | nil => intro pool q; simp [chainPosts, setContains]
  | cons b bs ih =>
    intro pool q
    rw [List.foldl_cons, ih, setContains_addMissing]
    have : chainPosts (b :: bs) = b.posts ++ chainPosts bs := by
      simp [chainPosts]
    rw [this, setContains_append]
    cases setContains pool q <;> cases setContains b.posts q <;>
      cases setContains (chainPosts bs) q <;> cases setContains posts q <;> simp

/-- C1: for every local miner state and every received chain strictly
longer than the local chain that passes validation (every block valid,
genesis link all zeros, links correct, no duplicated post), the
broadcast handler replaces the local chain with the received chain,
recomputes the accepted-post index as exactly the posts of the received
chain, and rebuilds the pool so that every post that was in the old
pool or on the old chain and is not on the new chain is in the new
pool; hence no post of the old chain is lost.  The hash is assumed
collision-free on the blocks at hand and the old chain's summaries
correct (both facts hold for the real SHA-256-based hash on a valid
local chain). -/
theorem broadcast_longer_valid_switch (env : CryptoEnv) (m : MinerState)
    (newChain : List Block) (posts : List Post)
    (hlen : m.blockChain.length < newChain.length)
    (hval : newChain.all env.blockOk = true)
    (hfirst : firstLinkOk newChain = true)
    (hlinks : linksOk env newChain = true)
    (hnodup : addAllNoDup [] (chainPosts newChain) = some posts)
    (hsumOld : ∀ b ∈ m.blockChain, b.header.summary = env.hashPosts b.posts)
    (hsumNew : ∀ b ∈ newChain, b.header.summary = env.hashPosts b.posts)
    (hcollH : ∀ bo ∈ m.blockChain, ∀ bn ∈ newChain,
      env.hashHeader bo.header = env.hashHeader bn.header → bo.header = bn.header)
    (hcollP : ∀ bo ∈ m.blockChain, ∀ bn ∈ newChain,
      env.hashPosts bo.posts = env.hashPosts bn.posts → bo.posts = bn.posts) :
    (broadcastHandler env m newChain).1 = (200, none)
    ∧ (broadcastHandler env m newChain).2.blockChain = newChain
    ∧ (∀ q, setContains (broadcastHandler env m newChain).2.posts q =
        setContains (chainPosts newChain) q)
    ∧ (∀ q, (setContains m.pool q = true ∨ q ∈ chainPosts m.blockChain) →
        setContains (chainPosts newChain) q = false →
        setContains (broadcastHandler env m newChain).2.pool q = true)
    ∧ (∀ q ∈ chainPosts m.blockChain,
        setContains (chainPosts newChain) q = true ∨
        setContains (broadcastHandler env m newChain).2.pool q = true) := by
  have hred := broadcastHandler_success env m newChain posts hlen hval hfirst hlinks hnodup
  have hposts : ∀ q, setContains posts q = setContains (chainPosts newChain) q := by
    intro q
    rw [setContains_addAllNoDup _ _ _ hnodup q]
    simp [setContains]
  have hpool : ∀ q, (setContains m.pool q = true ∨ q ∈ chainPosts m.blockChain) →
      setContains (chainPosts newChain) q = false →
      setContains ((m.blockChain.drop (divergeIdx env m.blockChain newChain)).foldl
        (fun acc b => addMissing posts acc b.posts)
        (addMissing posts [] m.pool)) q = true := by
    intro q hq hnot
    rw [setContains_poolRebuild, setContains_addMissing]
    have hpq : setContains posts q = false := by rw [hposts q, hnot]
    rw [hpq]
    have hcontains : setContains [] q = false := by simp [setContains]
    rw [hcontains]
    simp only [Bool.false_or, Bool.not_false, Bool.and_true]
    rcases hq with hq | hq
    · rw [hq]; simp
    · have hsplit : m.blockChain =
          m.blockChain.take (divergeIdx env m.blockChain newChain) ++
          m.blockChain.drop (divergeIdx env m.blockChain newChain) :=
        (List.take_append_drop _ _).symm
      rw [hsplit, chainPosts_append, List.mem_append] at hq
      rcases hq with hq | hq
      · exfalso
        rcases exists_block_of_mem_chainPosts hq with ⟨b, hb, hpb⟩
        rcases diverge_prefix_posts env m.blockChain newChain hcollH hcollP hsumOld hsumNew
          b hb with ⟨b', hb', hbb'⟩
        have hmemnew : q ∈ chainPosts newChain := mem_chainPosts hb' (hbb' ▸ hpb)
        have htrue : setContains (chainPosts newChain) q = true :=
          setContains_of_mem hmemnew
        rw [htrue] at hnot
        exact Bool.noConfusion hnot
      · rw [setContains_of_mem hq]; simp
  rw [hred]
  refine ⟨rfl, rfl, ?_, ?_, ?_⟩
  · intro q
    exact hposts q
  · intro q hq hnot
    exact hpool q hq hnot
  · intro q hq
    rcases hc : setContains (chainPosts newChain) q with _ | _
    · exact Or.inr (hpool q (Or.inr hq) hc)
    · exact Or.inl rfl

/-- A trivial concrete environment used to instantiate theorems. -/
def wEnv : CryptoEnv :=
  { hashHeader := fun _ => []
    hashPosts := fun _ => []
    verifyPost := fun _ => true
    blockOk := fun _ => true
    tgt := 0 }

/-- A concrete genesis-style block with no posts. -/
def wBlock : Block :=
  { header := { prevHash := zeros32, summary := [], timestamp := 0, nonce := 0 }
    posts := [] }

/-- Witness for `broadcast_longer_valid_switch`: a concrete one-block
valid chain received by a fresh miner. -/
theorem broadcast_longer_valid_switch_witness :
    initialMiner.blockChain.length < [wBlock].length ∧
    (broadcastHandler wEnv initialMiner [wBlock]).1 = (200, none) ∧
    (broadcastHandler wEnv initialMiner [wBlock]).2.blockChain = [wBlock] := by
  have h := broadcast_longer_valid_switch wEnv initialMiner [wBlock] []
    (by decide)
    rfl
    (by decide)
    rfl
    rfl
    (by intro b hb; simp [initialMiner] at hb)
    (by intro b hb
        rw [List.mem_singleton] at hb
        subst hb
        rfl)
    (by intro bo hbo; simp [initialMiner] at hbo)
    (by intro bo hbo; simp [initialMiner] at hbo)
  exact ⟨by decide, h.1, h.2.1⟩

/-- C3: a received chain of length at most the local one, or failing
any validation check, makes `broadcastHandler` return 200 and leave the
whole miner state unchanged. -/
theorem broadcast_reject_frame (env : CryptoEnv) (m : MinerState) (newChain : List Block)
    (h : newChain.length ≤ m.blockChain.length
      ∨ newChain.all env.blockOk = false
      ∨ firstLinkOk newChain = false
      ∨ linksOk env newChain = false
      ∨ addAllNoDup [] (chainPosts newChain) = none) :
    broadcastHandler env m newChain = ((200, none), m) := by
  unfold broadcastHandler
  by_cases h1 : newChain.length ≤ m.blockChain.length
  · rw [if_pos h1]
  · rw [if_neg h1]
    rcases h2 : newChain.all env.blockOk with _ | _
    · simp
    · rcases h3 : firstLinkOk newChain with _ | _
      · simp
      · rcases h4 : linksOk env newChain with _ | _
        · simp
        · rcases e : addAllNoDup [] (chainPosts newChain) with _ | posts
          · simp
          · exfalso
            rcases h with h | h | h | h | h
            · exact h1 h
            · rw [h2] at h; exact Bool.noConfusion h
            · rw [h3] at h; exact Bool.noConfusion h
            · rw [h4] at h; exact Bool.noConfusion h
            · rw [e] at h; exact Option.noConfusion h

/-- Witness for `broadcast_reject_frame`: the empty chain offered to a
fresh miner (equal length) is ignored. -/
theorem broadcast_reject_frame_witness :
    ([] : List Block).length ≤ initialMiner.blockChain.length ∧
    broadcastHandler wEnv initialMiner [] = ((200, none), initialMiner) :=
  ⟨by decide,
   broadcast_reject_frame wEnv initialMiner [] (Or.inl (by decide))⟩

/-- C4: `writeHandler` returns InvalidPost (400) on a post whose
signature does not verify, DuplicatePost (400) when the post is already
in the accepted index or the pool, and otherwise inserts the post into
the pool and returns 200; in every rejecting case the whole state is
unchanged. -/
theorem write_rejects_and_inserts (env : CryptoEnv) (m : MinerState) (p : Post) :
    (env.verifyPost p = false →
      writeHandler env m p = ((400, some "invalid post"), m))
    ∧ (env.verifyPost p = true →
        (setContains m.posts p || setContains m.pool p) = true →
        ((writeHandler env m p).1 = (400, some "duplicated post on the blockchain")
          ∨ (writeHandler env m p).1 = (400, some "duplicated post in the post"))
        ∧ (writeHandler env m p).2 = m)
    ∧ (env.verifyPost p = true →
        (setContains m.posts p || setContains m.pool p) = false →
        writeHandler env m p = ((200, none), { m with pool := setAdd m.pool p })) := by
  refine ⟨?_, ?_, ?_⟩
  · intro hv
    unfold writeHandler
    rw [hv]
    simp
  · intro hv hdup
    unfold writeHandler
    rw [hv]
    rcases hc1 : setContains m.posts p with _ | _
    · rcases hc2 : setContains m.pool p with _ | _
      · rw [hc1, hc2] at hdup; exact Bool.noConfusion hdup
      · simp
    · simp
  · intro hv hdup
    rcases Bool.or_eq_false_iff.1 hdup with ⟨hc1, hc2⟩
    unfold writeHandler
    rw [hv, hc1, hc2]
    simp

/-- A concrete post. -/
def wPost : Post := { body := { content := "x", timestamp := 0 }, user := [], signature := [] }

/-- A miner holding `wPost` in its pool. -/
def wMinerPool : MinerState := { blockChain := [], posts := [], pool := [wPost] }

/-- Witness for `write_rejects_and_inserts`: re-writing a post already
in the pool is rejected with the state unchanged. -/
theorem write_rejects_and_inserts_witness :
    wEnv.verifyPost wPost = true ∧
    (writeHandler wEnv wMinerPool wPost).2 = wMinerPool :=
  ⟨rfl, ((write_rejects_and_inserts wEnv wMinerPool wPost).2.1 rfl (by decide)).2⟩

/-- C5: `syncHandler` rejects the whole batch (400, pool untouched)
when any post fails verification; otherwise it returns 200, leaves the
chain and accepted index unchanged, keeps every pooled post, silently
skips posts already accepted, and ends with every batch post that is
not in the accepted index present in the pool. -/
theorem sync_batch_spec (env : CryptoEnv) (m : MinerState) (ps : List Post) :
    (ps.any (fun p => !env.verifyPost p) = true →
      syncHandler env m ps = ((400, some "posts are invalid"), m))
    ∧ (ps.all (fun p => env.verifyPost p) = true →
        (syncHandler env m ps).1 = (200, none)
        ∧ (syncHandler env m ps).2.blockChain = m.blockChain
        ∧ (syncHandler env m ps).2.posts = m.posts
        ∧ (∀ q, setContains m.pool q = true →
            setContains (syncHandler env m ps).2.pool q = true)
        ∧ (∀ p ∈ ps, setContains m.posts p = false →
            setContains (syncHandler env m ps).2.pool p = true)) := by
  refine ⟨?_, ?_⟩
  · intro hv
    unfold syncHandler
    rw [hv]
    simp
  · intro hall
    have hany : ps.any (fun p => !env.verifyPost p) = false := by
      rw [List.any_eq_false]
      intro p hp
      rw [List.all_eq_true] at hall
      rw [hall p hp]
      simp
    unfold syncHandler
    rw [hany]
    refine ⟨rfl, rfl, rfl, ?_, ?_⟩
    · intro q hq
      exact setContains_syncInsert_old m.posts ps m.pool q hq
    · intro p hp hnp
      exact setContains_syncInsert_new m.posts ps m.pool p hp hnp

/-- Witness for `sync_batch_spec`: syncing a single fresh post into a
fresh miner puts it in the pool. -/
theorem sync_batch_spec_witness :
    ([wPost].all (fun p => wEnv.verifyPost p) = true) ∧
    setContains (syncHandler wEnv initialMiner [wPost]).2.pool wPost = true := by
  have h := (sync_batch_spec wEnv initialMiner [wPost]).2 (by decide)
  exact ⟨by decide, h.2.2.2.2 wPost (List.mem_singleton.2 rfl) (by decide)⟩

/-- C6: at the mining commit, a chain length differing from the
snapshot discards the block with no state change and nothing broadcast;
an unchanged length appends the block, adds each of its posts to the
accepted index and removes it from the pool, and broadcasts exactly the
resulting full chain. -/
theorem mine_commit_spec (m : MinerState) (snapLen : Nat) (block : Block) :
    (m.blockChain.length ≠ snapLen →
      mineCommit m snapLen block = (m, none))
    ∧ (m.blockChain.length = snapLen →
        (mineCommit m snapLen block).1.blockChain = m.blockChain ++ [block]
        ∧ (∀ p ∈ block.posts,
            setContains (mineCommit m snapLen block).1.posts p = true
            ∧ setContains (mineCommit m snapLen block).1.pool p = false)
        ∧ (mineCommit m snapLen block).2 =
            some ((mineCommit m snapLen block).1.blockChain)) := by
  refine ⟨?_, ?_⟩
  · intro hne
    unfold mineCommit
    rw [if_pos hne]
  · intro heq
    have hred : mineCommit m snapLen block =
        ({ blockChain := m.blockChain ++ [block]
           posts := block.posts.foldl setAdd m.posts
           pool := block.posts.foldl setRemove m.pool },
         some (m.blockChain ++ [block])) := by
      unfold mineCommit
      rw [if_neg (by omega)]
    rw [hred]
    refine ⟨rfl, ?_, rfl⟩
    intro p hp
    constructor
    · rw [setContains_foldl_setAdd, setContains_of_mem hp]
      simp
    · rw [setContains_foldl_setRemove, setContains_of_mem hp]
      simp

/-- A one-post block used as a mining-commit witness. -/
def wBlockP : Block :=
  { header := { prevHash := zeros32, summary := [], timestamp := 0, nonce := 0 }
    posts := [wPost] }

/-- Witness for `mine_commit_spec`: committing a one-post block on a
miner whose chain still has the snapshot length moves the post from the
pool to the index. -/
theorem mine_commit_spec_witness :
    wMinerPool.blockChain.length = 0 ∧
    setContains (mineCommit wMinerPool 0 wBlockP).1.posts wPost = true ∧
    setContains (mineCommit wMinerPool 0 wBlockP).1.pool wPost = false := by
  have h := (mine_commit_spec wMinerPool 0 wBlockP).2 (by decide)
  have hp := h.2.1 wPost (List.mem_singleton.2 rfl)
  exact ⟨by decide, hp.1, hp.2⟩

/-- C10: with an empty pool, `mine` still builds a candidate block with
an empty post list (summary over the empty list); when the candidate's
header hash meets the target, the commit appends that zero-post block
to the chain (the snapshot length is unchanged in a sequential pass)
and broadcasts the grown chain, leaving index and pool as they were. -/
theorem mine_empty_pool_block (env : CryptoEnv) (m : MinerState) (ts : Int) (nonce : Nat)
    (hpool : m.pool = [])
    (hpow : powCheck (env.hashHeader (mkCandidate env m ts nonce).header) env.tgt = true) :
    (mkCandidate env m ts nonce).posts = []
    ∧ (mkCandidate env m ts nonce).header.summary = env.hashPosts []
    ∧ mine env m ts nonce =
        ({ m with blockChain := m.blockChain ++ [mkCandidate env m ts nonce] },
         some (m.blockChain ++ [mkCandidate env m ts nonce])) := by
  have hposts : (mkCandidate env m ts nonce).posts = [] := by
    unfold mkCandidate
    rw [hpool]
    rfl
  have hsum : (mkCandidate env m ts nonce).header.summary =
      env.hashPosts (m.pool.take PostsPerBlock) := rfl
  refine ⟨hposts, by rw [hsum, hpool]; rfl, ?_⟩
  unfold mine
  simp only [hpow, eq_self_iff_true, if_true]
  unfold mineCommit
  rw [if_neg (by omega)]
  rcases hm : m with ⟨chain, posts, pool⟩
  rw [hm] at hpool
  simp only at hpool
  subst hpool
  have hposts2 := hposts
  rw [hm] at hposts2
  have hfold1 : (mkCandidate env ⟨chain, posts, []⟩ ts nonce).posts.foldl setAdd posts
      = posts := by rw [hposts2]; rfl
  have hfold2 : (mkCandidate env ⟨chain, posts, []⟩ ts nonce).posts.foldl setRemove []
      = [] := by rw [hposts2]; rfl
  rw [hfold1, hfold2]

/-- Witness for `mine_empty_pool_block`: a fresh miner with target 0
mines a zero-post block. -/
theorem mine_empty_pool_block_witness :
    initialMiner.pool = [] ∧
    (mkCandidate wEnv initialMiner 0 0).posts = [] ∧
    (mine wEnv initialMiner 0 0).1.blockChain = [mkCandidate wEnv initialMiner 0 0] := by
  have h := mine_empty_pool_block wEnv initialMiner 0 0 rfl (by decide)
  exact ⟨rfl, h.1, by rw [h.2.2]; rfl⟩

/-! ### Preservation of the pool/index disjointness -/

lemma disjoint_write (env : CryptoEnv) (m : MinerState) (p : Post)
    (h : disjointInv m) : disjointInv (writeHandler env m p).2 := by
  unfold writeHandler
  rcases hv : env.verifyPost p with _ | _
  · simpa using h
  · rcases hc1 : setContains m.posts p with _ | _
    · rcases hc2 : setContains m.pool p with _ | _
      · simp only [Bool.not_true, Bool.false_eq_true, if_false]
        intro q
        simp only
        rw [setContains_setAdd]
        by_cases hpq : keyEq p q = true
        · rw [← setContains_congr hpq m.posts, hc1]
          simp
        · simp only [Bool.not_eq_true] at hpq
          rw [hpq, Bool.false_or]
          exact h q
      · simpa using h
    · simpa using h

lemma disjoint_syncInsert (posts0 : List Post) :
    ∀ (ps pool : List Post),
      (∀ q, (setContains pool q && setContains posts0 q) = false) →
      ∀ q, (setContains (syncInsert posts0 pool ps) q && setContains posts0 q) = false := by
  intro ps
  induction ps with
  | nil => intro pool h q; simpa [syncInsert] using h q
  | cons p rest ih =>
    intro pool h q
    have step : syncInsert posts0 pool (p :: rest) =
        syncInsert posts0
          (if setContains posts0 p || setContains pool p then pool else setAdd pool p)
          rest := by
      simp only [syncInsert, List.foldl_cons]
    rw [step]
    rcases hc : (setContains posts0 p || setContains pool p) with _ | _
    · have hp0 : setContains posts0 p = false := (Bool.or_eq_false_iff.1 hc).1
      have hadd : ∀ r, (setContains (setAdd pool p) r && setContains posts0 r) = false := by
        intro r
        rw [setContains_setAdd]
        by_cases hpr : keyEq p r = true
        · rw [← setContains_congr hpr posts0, hp0]
          simp
        · simp only [Bool.not_eq_true] at hpr
          rw [hpr, Bool.false_or]
          exact h r
      simpa using ih (setAdd pool p) hadd q
    · simpa using ih pool h q

lemma disjoint_sync (env : CryptoEnv) (m : MinerState) (ps : List Post)
    (h : disjointInv m) : disjointInv (syncHandler env m ps).2 := by
  unfold syncHandler
  rcases hv : ps.any (fun p => !env.verifyPost p) with _ | _
  · simp only [Bool.false_eq_true, if_false]
    intro q
    exact disjoint_syncInsert m.posts ps m.pool h q
  · simpa using h

lemma disjoint_broadcast (env : CryptoEnv) (m : MinerState) (c : List Block)
    (h : disjointInv m) : disjointInv (broadcastHandler env m c).2 := by
  by_cases h1 : c.length ≤ m.blockChain.length
  · rw [broadcast_reject_frame env m c (Or.inl h1)]; exact h
  · rcases h2 : c.all env.blockOk with _ | _
    · rw [broadcast_reject_frame env m c (Or.inr (Or.inl h2))]; exact h
    · rcases h3 : firstLinkOk c with _ | _
      · rw [broadcast_reject_frame env m c (Or.inr (Or.inr (Or.inl h3)))]; exact h
      · rcases h4 : linksOk env c with _ | _
        · rw [broadcast_reject_frame env m c (Or.inr (Or.inr (Or.inr (Or.inl h4))))]
          exact h
        · rcases e : addAllNoDup [] (chainPosts c) with _ | posts
          · rw [broadcast_reject_frame env m c (Or.inr (Or.inr (Or.inr (Or.inr e))))]
            exact h
          · rw [broadcastHandler_success env m c posts (by omega) h2 h3 h4 e]
            intro q
            simp only
            rw [setContains_poolRebuild, setContains_addMissing]
            have hnil : setContains [] q = false := by simp [setContains]
            rw [hnil]
            cases hq1 : setContains m.pool q <;>
              cases hq2 : setContains (chainPosts (m.blockChain.drop
                (divergeIdx env m.blockChain c))) q <;>
              cases hq3 : setContains posts q <;> simp

lemma disjoint_mine (env : CryptoEnv) (m : MinerState) (ts : Int) (nonce : Nat)
    (h : disjointInv m) : disjointInv (mine env m ts nonce).1 := by
  rcases hp : powCheck (env.hashHeader (mkCandidate env m ts nonce).header) env.tgt
    with _ | _
  · have hred : (mine env m ts nonce).1 = m := by
      unfold mine
      simp [hp]
    rw [hred]
    exact h
  · have hred : (mine env m ts nonce).1 =
        { blockChain := m.blockChain ++ [mkCandidate env m ts nonce]
          posts := (mkCandidate env m ts nonce).posts.foldl setAdd m.posts
          pool := (mkCandidate env m ts nonce).posts.foldl setRemove m.pool } := by
      unfold mine
      simp only [hp, eq_self_iff_true, if_true]
      unfold mineCommit
      rw [if_neg (by omega)]
    rw [hred]
    intro q
    simp only
    rw [setContains_foldl_setAdd, setContains_foldl_setRemove]
    have hmq := h q
    cases hq1 : setContains m.pool q <;>
      cases hq2 : setContains (mkCandidate env m ts nonce).posts q <;>
      cases hq3 : setContains m.posts q <;> simp_all

lemma disjoint_applyOp (env : CryptoEnv) (m : MinerState) (op : MinerOp)
    (h : disjointInv m) : disjointInv (applyOp env m op) := by
  cases op with
  | write p => exact disjoint_write env m p h
  | sync ps => exact disjoint_sync env m ps h
  | broadcast c => exact disjoint_broadcast env m c h
  | mineStep ts nonce => exact disjoint_mine env m ts nonce h

/-- C2: along every sequence of the miner's mutating operations (write,
sync, broadcast, mining pass) from the fresh initial state, no post is
ever simultaneously in the pool and in the accepted-post index. -/
theorem pool_index_disjoint_invariant (env : CryptoEnv) (ops : List MinerOp) :
    disjointInv (runOps env initialMiner ops) := by
  have hgen : ∀ (l : List MinerOp) (m : MinerState), disjointInv m →
      disjointInv (runOps env m l) := by
    intro l
    induction l with
    | nil => intro m h; exact h
    | cons op rest ih =>
      intro m h
      exact ih (applyOp env m op) (disjoint_applyOp env m op h)
  exact hgen ops initialMiner (by intro q; simp [initialMiner, setContains])

/-- C9: `registerHandler` always replies 200 with the full set of live
ports, which contains the calling port; the port's timer is (re)set to
expire `EntryTimeout` from now, replacing any existing entry, and every
other port's entry is untouched. -/
theorem tracker_register_spec (t : TrackerState) (now port : Nat) :
    (registerHandler t now port).1.1 = 200
    ∧ port ∈ (registerHandler t now port).1.2
    ∧ (registerHandler t now port).1.2 = (registerHandler t now port).2.miners.map Prod.fst
    ∧ (port, now + EntryTimeout) ∈ (registerHandler t now port).2.miners
    ∧ (∀ e ∈ (registerHandler t now port).2.miners,
        e.1 = port → e = (port, now + EntryTimeout))
    ∧ (∀ e : Nat × Nat, e.1 ≠ port →
        (e ∈ (registerHandler t now port).2.miners ↔ e ∈ t.miners)) := by
  refine ⟨rfl, ?_, rfl, ?_, ?_, ?_⟩
  · unfold registerHandler
    simp
  · unfold registerHandler
    simp
  · intro e he hport
    unfold registerHandler at he
    simp only [List.mem_append, List.mem_filter, List.mem_singleton] at he
    rcases he with ⟨_, hkeep⟩ | he
    · exfalso
      rw [hport] at hkeep
      simp at hkeep
    · exact he
  · intro e hne
    unfold registerHandler
    simp only [List.mem_append, List.mem_filter, List.mem_singleton]
    constructor
    · intro he
      rcases he with ⟨hmem, _⟩ | he
      · exact hmem
      · exfalso
        apply hne
        rw [he]
    · intro he
      exact Or.inl ⟨he, by simpa using hne⟩

/-! ### The public-key byte encoding -/

lemma bytesBEval_append_one (l : List Nat) (x : Nat) :
    bytesBEval (l ++ [x]) = bytesBEval l * 256 + x := by
  simp [bytesBEval, List.foldl_append]

lemma bytesBEval_natToBytesBE : ∀ n : Nat, bytesBEval (natToBytesBE n) = n := by
  intro n
  induction n using Nat.strong_induction_on with
  | _ n ih =>
    by_cases h : n = 0
    · subst h
      simp [natToBytesBE, natToBytesLE, bytesBEval]
    · have hlt : n / 256 < n := Nat.div_lt_self (Nat.pos_of_ne_zero h) (by norm_num)
      have hrec : natToBytesLE n = n % 256 :: natToBytesLE (n / 256) := by
        rw [natToBytesLE, if_neg h]
      have hprev := ih (n / 256) hlt
      rw [natToBytesBE] at hprev ⊢
      rw [hrec, List.reverse_cons, bytesBEval_append_one, hprev]
      omega

lemma natToBytesLE_ne_nil {n : Nat} (h : 0 < n) : natToBytesLE n ≠ [] := by
  rw [natToBytesLE, if_neg (by omega)]
  simp

lemma uint32LEval_putUint32LE {x : Nat} (h : x < 2 ^ 32) :
    uint32LEval (putUint32LE x) = x := by
  norm_num [putUint32LE, uint32LEval]
  omega

/-- C8: the canonical public-key encoding round-trips: for every key
with exponent below 2^32 and positive modulus, decoding the encoding
returns the same exponent and modulus, and decoding any buffer of
length at most 4 fails. -/
theorem publicKey_roundtrip (E N : Nat) (hE : E < 2 ^ 32) (hN : 0 < N) :
    PublicKeyFromBytes (PublicKeyToBytes E N) = some (E, N)
    ∧ ∀ buf : List Nat, buf.length ≤ 4 → PublicKeyFromBytes buf = none := by
  constructor
  · have hEmod : E % 2 ^ 32 = E := Nat.mod_eq_of_lt hE
    have hlen4 : (putUint32LE (E % 2 ^ 32)).length = 4 := rfl
    have hlong : ¬ (putUint32LE (E % 2 ^ 32) ++ natToBytesBE N).length ≤ 4 := by
      rw [List.length_append, hlen4]
      have hne : natToBytesBE N ≠ [] := by
        rw [natToBytesBE]
        simp [natToBytesLE_ne_nil hN]
      have : 0 < (natToBytesBE N).length := List.length_pos.2 hne
      omega
    unfold PublicKeyToBytes PublicKeyFromBytes
    rw [if_neg hlong]
    have htake : (putUint32LE (E % 2 ^ 32) ++ natToBytesBE N).take 4 =
        putUint32LE (E % 2 ^ 32) := by
      rw [← hlen4, List.take_left]
    have hdrop : (putUint32LE (E % 2 ^ 32) ++ natToBytesBE N).drop 4 =
        natToBytesBE N := by
      rw [← hlen4, List.drop_left]
    rw [htake, hdrop, bytesBEval_natToBytesBE N, hEmod,
      uint32LEval_putUint32LE hE]
  · intro buf hbuf
    unfold PublicKeyFromBytes
    rw [if_pos hbuf]

/-- Witness for `publicKey_roundtrip`: the standard exponent 65537 with
modulus 3233 round-trips. -/
theorem publicKey_roundtrip_witness :
    (65537 : Nat) < 2 ^ 32 ∧ (0 : Nat) < 3233 ∧
    PublicKeyFromBytes (PublicKeyToBytes 65537 3233) = some (65537, 3233) :=
  ⟨by norm_num, by norm_num,
   (publicKey_roundtrip 65537 3233 (by norm_num) (by norm_num)).1⟩

/-! ### The difficulty-target check, bit by bit -/

lemma byte_top_bits (b k : Nat) (hb : b < 256) (hk : k ≤ 8) :
    b >>> (8 - k) = 0 ↔ ∀ r, r < k → b >>> (7 - r) % 2 = 0 := by
  constructor
  · intro h r hr
    have hblt : b < 2 ^ (8 - k) := by
      rw [Nat.shiftRight_eq_div_pow] at h
      exact (Nat.div_eq_zero_iff (Nat.pos_pow_of_pos _ (by norm_num))).1 h
    have hle : 2 ^ (8 - k) ≤ 2 ^ (7 - r) :=
      Nat.pow_le_pow_right (by norm_num) (by omega)
    rw [Nat.shiftRight_eq_div_pow, Nat.div_eq_of_lt (lt_of_lt_of_le hblt hle)]
  · intro h
    have hc : ∀ i, (b >>> (8 - k)).testBit i = false := by
      intro i
      rw [Nat.testBit_shiftRight]
      by_cases hi : i < k
      · have hr : k - 1 - i < k := by omega
        have hbit := h (k - 1 - i) hr
        have harg : 7 - (k - 1 - i) = 8 - k + i := by omega
        rw [harg, Nat.shiftRight_eq_div_pow] at hbit
        rw [Nat.testBit_to_div_mod]
        simp [hbit]
      · apply Nat.testBit_lt_two_pow
        calc b < 2 ^ 8 := hb
          _ ≤ 2 ^ (8 - k + i) := Nat.pow_le_pow_right (by norm_num) (by omega)
    exact Nat.eq_of_testBit_eq fun i => by rw [hc i, Nat.zero_testBit]

lemma getD_lt_256 (hash : List Nat) (hbytes : ∀ b ∈ hash, b < 256) (i : Nat) :
    hash.getD i 0 < 256 := by
  by_cases hi : i < hash.length
  · rw [List.getD_eq_getElem hash 0 hi]
    exact hbytes _ (List.getElem_mem hi)
  · rw [List.getD_eq_default]
    · norm_num
    · omega

/-- C7: for a 32-byte hash, the nonce-acceptance check inside `mine`
succeeds exactly when the first `TARGET` bits of the hash are zero
(`TARGET / 8` zero bytes, then `TARGET % 8` leading zero bits of the
next byte, the bit condition being vacuous when `TARGET % 8 = 0`). -/
theorem pow_target_iff (hash : List Nat) (tgt : Nat)
    (hlen : hash.length = 32)
    (hbytes : ∀ b ∈ hash, b < 256)
    (htgt : tgt ≤ 256) :
    powCheck hash tgt = true ↔ firstBitsZero hash tgt = true := by
  have hbyte : ∀ i, hash.getD i 0 < 256 := fun i => getD_lt_256 hash hbytes i
  have hpc : powCheck hash tgt = true ↔
      ((∀ i, i < tgt / 8 → hash.getD i 0 = 0) ∧
       (0 < tgt % 8 → hash.getD (tgt / 8) 0 >>> (8 - tgt % 8) = 0)) := by
    unfold powCheck
    simp only [Bool.and_eq_true, List.all_eq_true, List.mem_range, beq_iff_eq]
    constructor
    · rintro ⟨h1, h2⟩
      refine ⟨h1, fun h8 => ?_⟩
      rw [if_pos h8] at h2
      simpa using h2
    · rintro ⟨h1, h2⟩
      refine ⟨h1, ?_⟩
      by_cases h8 : 0 < tgt % 8
      · rw [if_pos h8]
        simpa using h2 h8
      · rw [if_neg h8]
  have hfb : firstBitsZero hash tgt = true ↔
      ∀ j, j < tgt → hash.getD (j / 8) 0 >>> (7 - j % 8) % 2 = 0 := by
    unfold firstBitsZero bitAt
    simp only [List.all_eq_true, List.mem_range, beq_iff_eq]
  rw [hpc, hfb]
  constructor
  · rintro ⟨h1, h2⟩ j hj
    by_cases hcase : j / 8 < tgt / 8
    · rw [h1 _ hcase]
      simp [Nat.shiftRight_eq_div_pow]
    · have hdiv : j / 8 = tgt / 8 := by omega
      have h8 : 0 < tgt % 8 := by omega
      have hmod : j % 8 < tgt % 8 := by omega
      rw [hdiv]
      exact (byte_top_bits _ (tgt % 8) (hbyte _) (by omega)).1 (h2 h8) (j % 8) hmod
  · intro h
    constructor
    · intro i hi
      have hbits : ∀ r, r < 8 → hash.getD i 0 >>> (7 - r) % 2 = 0 := by
        intro r hr
        have hj : 8 * i + r < tgt := by omega
        have hb := h (8 * i + r) hj
        have hd : (8 * i + r) / 8 = i := by omega
        have hm : (8 * i + r) % 8 = r := by omega
        rw [hd, hm] at hb
        exact hb
      have := (byte_top_bits (hash.getD i 0) 8 (hbyte _) (by norm_num)).2 hbits
      simpa using this
    · intro h8
      apply (byte_top_bits (hash.getD (tgt / 8) 0) (tgt % 8) (hbyte _) (by omega)).2
      intro r hr
      have hj : 8 * (tgt / 8) + r < tgt := by omega
      have hb := h (8 * (tgt / 8) + r) hj
      have hd : (8 * (tgt / 8) + r) / 8 = tgt / 8 := by omega
      have hm : (8 * (tgt / 8) + r) % 8 = r := by omega
      rw [hd, hm] at hb
      exact hb

/-- Witness for `pow_target_iff`: the all-zero 32-byte hash against a
12-bit target. -/
theorem pow_target_iff_witness :
    zeros32.length = 32 ∧
    (powCheck zeros32 12 = true ↔ firstBitsZero zeros32 12 = true) :=
  ⟨rfl, pow_target_iff zeros32 12 rfl (by decide) (by norm_num)⟩

/-- Witness for `pool_index_disjoint_invariant`: a concrete one-write
run. -/
theorem pool_index_disjoint_invariant_witness :
    disjointInv (runOps wEnv initialMiner [MinerOp.write wPost]) :=
  pool_index_disjoint_invariant wEnv [MinerOp.write wPost]

/-- Witness for `tracker_register_spec`: registering port 8080 on an
empty tracker at time 0. -/
theorem tracker_register_spec_witness :
    (registerHandler ⟨[]⟩ 0 8080).1.1 = 200 ∧
    8080 ∈ (registerHandler ⟨[]⟩ 0 8080).1.2 ∧
    (8080, 0 + EntryTimeout) ∈ (registerHandler ⟨[]⟩ 0 8080).2.miners :=
  ⟨(tracker_register_spec ⟨[]⟩ 0 8080).1,
   (tracker_register_spec ⟨[]⟩ 0 8080).2.1,
   (tracker_register_spec ⟨[]⟩ 0 8080).2.2.2.1⟩
